import Mathlib

/-!
# Verification of the babygogo stream-processing engine

Shallow embedding of `src/babygogo/stream.py` and `src/babygogo/source.py`.

Python values are modelled by the inductive type `Val` (with `Val.none`
standing for Python's `None`).  A user-supplied transform may raise, so
transforms are `Val → Except Unit Val` (`Except.error` = an exception).

The coroutine relay of `Filter.__call__` is modelled explicitly: every
`Stream.append` creates a fresh generator instance (`Gen`) over a (possibly
shared) filter object, and an exception propagating out of a generator
terminates it, so that a later `send` to it raises `StopIteration`.  The
shared mutable filter objects (in particular the single `Joiner` shared by
three streams after `join`) live in a heap (`World.filterObjs`) addressed by
index, exactly mirroring Python object identity.

An element produced by a filter whose `next` link is `None` is dropped by
`send_next`; the interpreter records such elements as the observable output
of a `process` call (this is what a collector appended at the tail would
receive).
-/

/-- Python values, as far as the engine manipulates them.  `Val.none` is
Python's `None`; tuples are built from `Val.pair`. -/
inductive Val where
  | none
  | int (n : Int)
  | str (s : String)
  | bool (b : Bool)
  | pair (a b : Val)
deriving DecidableEq, Repr

/-- `Element` from stream.py: a data payload plus the identity of the stream
whose node most recently produced it. -/
structure Element where
  stream_id : String
  data : Val
deriving DecidableEq, Repr

/-- `pylru.lrucache(size)`: a bounded mapping; `entries` is kept in
most-recently-used-first order. -/
structure LRUCache where
  size : Nat
  entries : List (Val × Val)
deriving DecidableEq, Repr

/-- Raw lookup (no recency update): the value stored for `k`, if present. -/
def lruLookup (c : LRUCache) (k : Val) : Option Val :=
  (c.entries.find? (fun p => p.1 = k)).map Prod.snd

/-- A successful lookup in pylru moves the entry to the head
(most recently used); a miss leaves the cache unchanged. -/
def lruTouch (c : LRUCache) (k : Val) : LRUCache :=
  match lruLookup c k with
  | some v => { c with entries := (k, v) :: c.entries.filter (fun p => p.1 ≠ k) }
  | none => c

/-- `cache[key] = value` in pylru: insert or update `k`, making it the most
recently used entry, evicting the least recently used entry if the capacity
would be exceeded. -/
def lruInsert (c : LRUCache) (k v : Val) : LRUCache :=
  { c with entries := ((k, v) :: c.entries.filter (fun p => p.1 ≠ k)).take c.size }

/-- `cache.get(key)` in pylru: returns the stored value, or `None` when the
key is absent, updating recency on a hit.  The first component is exactly
what the Python expression `cache.get(key)` evaluates to (note that a stored
`None` value and a missing key are indistinguishable here, as in Python). -/
def pyGet (c : LRUCache) (k : Val) : Val × LRUCache :=
  ((lruLookup c k).getD Val.none, lruTouch c k)

/-- The state of a `Filter` object (stream.py): a `Mapper` owns its transform,
a `Reducer` its fold function and mutable accumulator, a `Joiner` the two
upstream stream identities, the target stream identity and its two caches. -/
inductive FKind where
  | mapper (f : Val → Except Unit Val)
  | reducer (f : Val → Val → Except Unit Val) (acc : Val)
  | joiner (lId rId tId : String) (cacheL cacheR : LRUCache)

/-- A `Filter` heap object: its kind/state plus the `self.next` downstream
generator link (shared by every generator wrapping this object). -/
structure FilterObj where
  kind : FKind
  next : Option Nat

/-- A generator instance created by `Stream.append` (`it = fltr(); next(it)`).
`alive = false` once an exception has propagated out of it; a `send` to a
dead generator raises `StopIteration`. -/
structure Gen where
  fid : Nat
  alive : Bool

/-- A `Stream` object: its identity, chain head generator, and the ordered
list of appended filter objects (`self.__filters`). -/
structure StreamObj where
  id : String
  head : Option Nat
  filters : List Nat

/-- The mutable object heap: filter objects, generator instances and stream
objects, addressed by index (Python object identity). -/
structure World where
  filterObjs : List FilterObj
  gens : List Gen
  streams : List StreamObj

def emptyWorld : World := ⟨[], [], []⟩

def defaultFilterObj : FilterObj := ⟨.mapper (fun v => .ok v), none⟩

def getF (w : World) (i : Nat) : FilterObj := w.filterObjs.getD i defaultFilterObj

def getG (w : World) (i : Nat) : Gen := w.gens.getD i ⟨0, false⟩

def getS (w : World) (i : Nat) : StreamObj := w.streams.getD i ⟨"", none, []⟩

def setFKind (w : World) (i : Nat) (k : FKind) : World :=
  { w with filterObjs := w.filterObjs.set i ⟨k, (getF w i).next⟩ }

def setFNext (w : World) (i : Nat) (nx : Option Nat) : World :=
  { w with filterObjs := w.filterObjs.set i ⟨(getF w i).kind, nx⟩ }

def setS (w : World) (i : Nat) (s : StreamObj) : World :=
  { w with streams := w.streams.set i s }

def markDead (w : World) (g : Nat) : World :=
  { w with gens := w.gens.set g ⟨(getG w g).fid, false⟩ }

/-- `Stream.__init__`: a new stream with the given identity (the source draws
a fresh uuid; the model takes the drawn identity as a parameter), empty chain. -/
def newStream (w : World) (sid : String) : World × Nat :=
  ({ w with streams := w.streams ++ [⟨sid, none, []⟩] }, w.streams.length)

/-- Allocate a filter object on the heap (`Mapper(f)`, `Reducer(f, initial)`,
`Joiner(...)` construction); `self.next = None` initially. -/
def newFilter (w : World) (k : FKind) : World × Nat :=
  ({ w with filterObjs := w.filterObjs ++ [⟨k, none⟩] }, w.filterObjs.length)

/-- `Stream.append(fltr)`: prime a fresh generator over the (existing) filter
object `fid`; make it the chain head if the chain is empty, otherwise set the
current tail filter's `next` to it; record `fid` in `self.__filters`. -/
def streamAppend (w : World) (s fid : Nat) : World :=
  let g := w.gens.length
  let w1 : World := { w with gens := w.gens ++ [⟨fid, true⟩] }
  let st := getS w1 s
  match st.head with
  | none => setS w1 s { st with head := some g, filters := st.filters ++ [fid] }
  | some _ =>
      let lastFid := st.filters.getLastD 0
      let w2 := setFNext w1 lastFid (some g)
      setS w2 s { st with filters := st.filters ++ [fid] }

/-- `Stream.map(f)`: append a fresh `Mapper(f)`. -/
def streamMap (w : World) (s : Nat) (f : Val → Except Unit Val) : World :=
  let p := newFilter w (.mapper f)
  streamAppend p.1 s p.2

/-- `Stream.reduce(f, initial)`: append a fresh `Reducer(f, initial)`. -/
def streamReduce (w : World) (s : Nat) (f : Val → Val → Except Unit Val)
    (initial : Val) : World :=
  let p := newFilter w (.reducer f initial)
  streamAppend p.1 s p.2

/-- `join(left, right, max_size)`: create the target stream (with the drawn
identity `newId`), construct one shared `Joiner`, and append that single
object to `left`, `right` and the target.  Returns the target stream. -/
def joinStreams (w : World) (l r : Nat) (maxSize : Nat) (newId : String) :
    World × Nat :=
  let p := newStream w newId
  let q := newFilter p.1 (.joiner (getS w l).id (getS w r).id newId
    ⟨maxSize, []⟩ ⟨maxSize, []⟩)
  let w3 := streamAppend q.1 l q.2
  let w4 := streamAppend w3 r q.2
  let w5 := streamAppend w4 p.2 q.2
  (w5, p.2)

/-- The `process` method of the concrete filter classes: returns the updated
filter state together with `Except.error` if a transform raised, otherwise
the optional produced element (`None` = no output, as in `Joiner` misses).
Mirrors `Mapper.process`, `Reducer.process`, `Joiner.process`. -/
def fkindProcess (k : FKind) (e : Element) : FKind × Except Unit (Option Element) :=
  match k with
  | .mapper f =>
      match f e.data with
      | .error u => (.mapper f, .error u)
      | .ok r => (.mapper f, .ok (some ⟨e.stream_id, r⟩))
  | .reducer f acc =>
      match f e.data acc with
      | .error u => (.reducer f acc, .error u)
      | .ok a2 => (.reducer f a2, .ok (some ⟨e.stream_id, a2⟩))
  | .joiner lId rId tId cl cr =>
      match e.data with
      | .pair key value =>
          if e.stream_id = lId then
            let p := pyGet cr key
            if p.1 ≠ Val.none then
              (.joiner lId rId tId cl p.2, .ok (some ⟨tId, .pair key (.pair value p.1)⟩))
            else
              (.joiner lId rId tId (lruInsert cl key value) p.2, .ok none)
          else
            let p := pyGet cl key
            if p.1 ≠ Val.none then
              (.joiner lId rId tId p.2 cr, .ok (some ⟨tId, .pair key (.pair p.1 value)⟩))
            else
              (.joiner lId rId tId p.2 (lruInsert cr key value), .ok none)
      | _ => (.joiner lId rId tId cl cr, .error ())

/-- `generator.send(element)` on the generator `g` created by `append`, with
`fuel` bounding recursion depth (any fuel at least the chain length is
exact).  Runs `Filter.__call__`'s loop body: `process`, then `send_next` when
a result was produced.  An exception propagating out of a generator marks it
dead; sending to a dead generator raises `StopIteration` (an error at the
caller).  Elements dropped by `send_next` because `self.next is None` are
returned as the observable outputs. -/
def sendGen : Nat → World → Nat → Element → World × Except Unit (List Element)
  | 0, w, _, _ => (w, .error ())
  | fuel + 1, w, g, e =>
    if (getG w g).alive then
      let fid := (getG w g).fid
      let pr := fkindProcess (getF w fid).kind e
      let w1 := setFKind w fid pr.1
      match pr.2 with
      | .error u => (markDead w1 g, .error u)
      | .ok Option.none => (w1, .ok [])
      | .ok (some e2) =>
          match (getF w1 fid).next with
          | none => (w1, .ok [e2])
          | some g2 =>
              match sendGen fuel w1 g2 e2 with
              | (w2, .ok outs) => (w2, .ok outs)
              | (w2, .error u) => (markDead w2 g, .error u)
    else (w, .error ())

/-- `Stream.process(data)`: wrap `data` in an `Element` stamped with this
stream's identity and send it to the chain head; a no-op when the chain is
empty. -/
def streamProcess (fuel : Nat) (w : World) (s : Nat) (data : Val) :
    World × Except Unit (List Element) :=
  match (getS w s).head with
  | none => (w, .ok [])
  | some g => sendGen fuel w g ⟨(getS w s).id, data⟩

/-- Feed a sequence of raw values by successive `process` calls, returning
the final world and the per-call results. -/
def feedAll (fuel : Nat) (w : World) (s : Nat) :
    List Val → World × List (Except Unit (List Element))
  | [] => (w, [])
  | x :: xs =>
      let p := streamProcess fuel w s x
      let q := feedAll fuel p.1 s xs
      (q.1, p.2 :: q.2)

/-- `Source._process(element)` (source.py): deliver to the attached stream,
or — when no stream is attached — log a warning and discard.  The second
component counts warnings emitted. -/
def sourceDeliver (fuel : Nat) (w : World) (attached : Option Nat) (e : Val) :
    (World × Except Unit (List Element)) × Nat :=
  match attached with
  | some s => (streamProcess fuel w s e, 0)
  | none => ((w, .ok []), 1)

/-- `IterableSource.start` (source.py): `for e in itr: self._stream.process(e)`.
Note the attribute access `self._stream.process` is unguarded: when no stream
is attached, `self._stream` is `None` and the call raises `AttributeError`
(modelled as `Except.error`). -/
def iterableStart (fuel : Nat) (w : World) (attached : Option Nat) :
    List Val → World × Except Unit (List Element)
  | [] => (w, .ok [])
  | e :: rest =>
      match attached with
      | none => (w, .error ())
      | some s =>
          match streamProcess fuel w s e with
          | (w1, .error u) => (w1, .error u)
          | (w1, .ok outs) =>
              match iterableStart fuel w1 attached rest with
              | (w2, .error u) => (w2, .error u)
              | (w2, .ok outs2) => (w2, .ok (outs ++ outs2))

/-- The world holding two fresh streams `left` (index 0, identity `lid`) and
`right` (index 1, identity `rid`) joined by `join` with cache capacity `m`
into the target stream (index 2, drawn identity `tid`). -/
def joinedWorld (lid rid tid : String) (m : Nat) : World :=
  (joinStreams (newStream (newStream emptyWorld lid).1 rid).1 0 1 m tid).1

/-- The same three-stream world with the shared Joiner's caches generalised:
this is the state reached from `joinedWorld` after some feeds (only the two
caches evolve on unmatched/matched feeds). -/
def jwState (lid rid tid : String) (cl cr : LRUCache) : World :=
  { filterObjs := [⟨.joiner lid rid tid cl cr, none⟩]
  , gens := [⟨0, true⟩, ⟨0, true⟩, ⟨0, true⟩]
  , streams := [⟨lid, some 0, [0]⟩, ⟨rid, some 1, [0]⟩, ⟨tid, some 2, [0]⟩] }

/-- Observation harness: the left cache of the Joiner object at heap index
`fid` (the dummy empty cache if that object is not a Joiner). -/
def jCacheL (w : World) (fid : Nat) : LRUCache :=
  match (getF w fid).kind with
  | .joiner _ _ _ cl _ => cl
  | _ => ⟨0, []⟩

/-- Observation harness: the right cache of the Joiner object at heap index
`fid`. -/
def jCacheR (w : World) (fid : Nat) : LRUCache :=
  match (getF w fid).kind with
  | .joiner _ _ _ _ cr => cr
  | _ => ⟨0, []⟩

/-- Feed a `(key, value)` pair to the left stream (index 0) of a joined
world; one unit of fuel is exact for the bare joined topology. -/
def feedL (w : World) (k v : Val) : World × Except Unit (List Element) :=
  streamProcess 1 w 0 (.pair k v)

/-- Feed a `(key, value)` pair to the right stream (index 1) of a joined
world. -/
def feedR (w : World) (k v : Val) : World × Except Unit (List Element) :=
  streamProcess 1 w 1 (.pair k v)

/-- Lift a pure (non-raising) Python function. -/
def liftF (f : Val → Val) : Val → Except Unit Val := fun v => .ok (f v)

/-- The world obtained by creating a fresh stream with identity `sid` and
appending `map(f₁), …, map(fₙ)` in order. -/
def buildMaps (sid : String) (fs : List (Val → Val)) : World :=
  fs.foldl (fun w f => streamMap w 0 (liftF f)) (newStream emptyWorld sid).1

/-- The filter object of the `j`-th mapper in a linear chain of `n` mappers:
its `next` is the generator `j+1` unless it is the tail. -/
def linkObj (f : Val → Val) (j n : Nat) : FilterObj :=
  ⟨.mapper (liftF f), if j + 1 < n then some (j + 1) else none⟩

/-- The filter heap of a linear chain of mappers `fs` starting at index `j`
in a chain of `n` filters total. -/
def linked : List (Val → Val) → Nat → Nat → List FilterObj
  | [], _, _ => []
  | f :: fs, j, n => linkObj f j n :: linked fs (j + 1) n

/-- Closed form of `buildMaps`: the linear-chain world. -/
def linWorld (sid : String) (fs : List (Val → Val)) : World :=
  { filterObjs := linked fs 0 fs.length
  , gens := (List.range fs.length).map (fun i => ⟨i, true⟩)
  , streams := [⟨sid, if fs.length = 0 then none else some 0,
      List.range fs.length⟩] }

/-- A single-`Reducer` pipeline whose accumulator currently holds `acc`
(`acc = initial` right after `reduce(f, initial)`). -/
def reducerWorld (sid : String) (f : Val → Val → Val) (acc : Val) : World :=
  streamReduce (newStream emptyWorld sid).1 0 (fun x a => .ok (f x a)) acc

/-- The sequence of accumulator values a `Reducer` with fold `f` emits while
consuming `xs` from accumulator `acc` (`f` takes the element first, the
accumulated value second, as in `Reducer.process`). -/
def reduceTrace (f : Val → Val → Val) (acc : Val) : List Val → List Val
  | [] => []
  | x :: xs => f x acc :: reduceTrace f (f x acc) xs

/-- A pipeline with identity `sid` and a single possibly-raising `map(f)`. -/
def mapWorld (sid : String) (f : Val → Except Unit Val) : World :=
  streamMap (newStream emptyWorld sid).1 0 f

/-- A transform that raises on the input `4` and is the identity elsewhere. -/
def raiseOnFour : Val → Except Unit Val :=
  fun v => if v = .int 4 then .error () else .ok v

/-- Integer addition on `Val`, the fold function of the reference example. -/
def addInts : Val → Val → Val :=
  fun x a =>
    match x, a with
    | .int n, .int m => .int (n + m)
    | _, _ => Val.none

theorem joinedWorld_eq_jwState (lid rid tid : String) (m : Nat) :
    joinedWorld lid rid tid m = jwState lid rid tid ⟨m, []⟩ ⟨m, []⟩ := rfl

theorem lruTouch_of_lookup_none {c : LRUCache} {k : Val}
    (h : lruLookup c k = none) : lruTouch c k = c := by
  unfold lruTouch
  rw [h]

/-- One `process` call on the left stream of a joined world, when the key
misses the right cache (`cache_right.get(key)` is `None`): the pair is stored
in the left cache and nothing is emitted. -/
theorem jw_left_feed_miss (lid rid tid : String) (cl cr : LRUCache) (k v : Val)
    (fuel : Nat) (h : (lruLookup cr k).getD Val.none = Val.none) :
    streamProcess (fuel + 1) (jwState lid rid tid cl cr) 0 (.pair k v) =
      (jwState lid rid tid (lruInsert cl k v) (lruTouch cr k), .ok []) := by
  simp [streamProcess, jwState, getS, sendGen, getG, getF, fkindProcess,
    setFKind, pyGet, h]

/-- One `process` call on the left stream of a joined world, when
`cache_right.get(key)` returns a non-`None` value `c`: a joined element
`(key, (value, c))` stamped with the target identity is emitted (and dropped
at the joiner's `next`, hence observable); the right cache keeps the entry
(recency refreshed), the left cache is untouched. -/
theorem jw_left_feed_hit (lid rid tid : String) (cl cr : LRUCache) (k v c : Val)
    (fuel : Nat) (h : (lruLookup cr k).getD Val.none = c) (hc : c ≠ Val.none) :
    streamProcess (fuel + 1) (jwState lid rid tid cl cr) 0 (.pair k v) =
      (jwState lid rid tid cl (lruTouch cr k),
        .ok [⟨tid, .pair k (.pair v c)⟩]) := by
  simp [streamProcess, jwState, getS, sendGen, getG, getF, fkindProcess,
    setFKind, pyGet, h, hc]

/-- One `process` call on the right stream of a joined world (distinct stream
identities), when the key misses the left cache. -/
theorem jw_right_feed_miss (lid rid tid : String) (cl cr : LRUCache) (k v : Val)
    (fuel : Nat) (hlr : rid ≠ lid)
    (h : (lruLookup cl k).getD Val.none = Val.none) :
    streamProcess (fuel + 1) (jwState lid rid tid cl cr) 1 (.pair k v) =
      (jwState lid rid tid (lruTouch cl k) (lruInsert cr k v), .ok []) := by
  simp [streamProcess, jwState, getS, sendGen, getG, getF, fkindProcess,
    setFKind, pyGet, h, hlr]

theorem lruLookup_nil (m : Nat) (k : Val) : lruLookup ⟨m, []⟩ k = none := rfl

theorem lruLookup_cons_self (m : Nat) (t : List (Val × Val)) (k v : Val) :
    lruLookup ⟨m, (k, v) :: t⟩ k = some v := by
  simp [lruLookup, List.find?]

theorem lruTouch_nil (m : Nat) (k : Val) : lruTouch ⟨m, []⟩ k = ⟨m, []⟩ := rfl

theorem lruTouch_single (m : Nat) (k v : Val) :
    lruTouch ⟨m, [(k, v)]⟩ k = ⟨m, [(k, v)]⟩ := by
  simp [lruTouch, lruLookup_cons_self, List.filter]

theorem lruInsert_nil (m : Nat) (hm : 0 < m) (k v : Val) :
    lruInsert ⟨m, []⟩ k v = ⟨m, [(k, v)]⟩ := by
  cases m with
  | zero => exact absurd hm (by simp)
  | succ n => simp [lruInsert]

theorem jCacheL_jwState (lid rid tid : String) (cl cr : LRUCache) :
    jCacheL (jwState lid rid tid cl cr) 0 = cl := rfl

theorem jCacheR_jwState (lid rid tid : String) (cl cr : LRUCache) :
    jCacheR (jwState lid rid tid cl cr) 0 = cr := rfl

/-- One `process` call on the right stream of a joined world (distinct stream
identities), when `cache_left.get(key)` returns a non-`None` value `c`: a
joined element `(key, (c, value))` — left value first — stamped with the
target identity is emitted; the left cache keeps the entry. -/
theorem jw_right_feed_hit (lid rid tid : String) (cl cr : LRUCache) (k v c : Val)
    (fuel : Nat) (hlr : rid ≠ lid)
    (h : (lruLookup cl k).getD Val.none = c) (hc : c ≠ Val.none) :
    streamProcess (fuel + 1) (jwState lid rid tid cl cr) 1 (.pair k v) =
      (jwState lid rid tid (lruTouch cl k) cr,
        .ok [⟨tid, .pair k (.pair c v)⟩]) := by
  simp [streamProcess, jwState, getS, sendGen, getG, getF, fkindProcess,
    setFKind, pyGet, h, hc, hlr]

theorem feedL_miss (lid rid tid : String) (cl cr : LRUCache) (k v : Val)
    (h : (lruLookup cr k).getD Val.none = Val.none) :
    feedL (jwState lid rid tid cl cr) k v =
      (jwState lid rid tid (lruInsert cl k v) (lruTouch cr k), .ok []) :=
  jw_left_feed_miss lid rid tid cl cr k v 0 h

theorem feedL_hit (lid rid tid : String) (cl cr : LRUCache) (k v c : Val)
    (h : (lruLookup cr k).getD Val.none = c) (hc : c ≠ Val.none) :
    feedL (jwState lid rid tid cl cr) k v =
      (jwState lid rid tid cl (lruTouch cr k),
        .ok [⟨tid, .pair k (.pair v c)⟩]) :=
  jw_left_feed_hit lid rid tid cl cr k v c 0 h hc

theorem feedR_miss (lid rid tid : String) (cl cr : LRUCache) (k v : Val)
    (hlr : rid ≠ lid) (h : (lruLookup cl k).getD Val.none = Val.none) :
    feedR (jwState lid rid tid cl cr) k v =
      (jwState lid rid tid (lruTouch cl k) (lruInsert cr k v), .ok []) :=
  jw_right_feed_miss lid rid tid cl cr k v 0 hlr h

theorem feedR_hit (lid rid tid : String) (cl cr : LRUCache) (k v c : Val)
    (hlr : rid ≠ lid) (h : (lruLookup cl k).getD Val.none = c)
    (hc : c ≠ Val.none) :
    feedR (jwState lid rid tid cl cr) k v =
      (jwState lid rid tid (lruTouch cl k) cr,
        .ok [⟨tid, .pair k (.pair c v)⟩]) :=
  jw_right_feed_hit lid rid tid cl cr k v c 0 hlr h hc

theorem getD_snoc_self {α : Type} (l : List α) (a d : α) :
    (l ++ [a]).getD l.length d = a := by
  simp

/-- **C1, counterexample.** Joining two pipelines and feeding `(0, None)` to
the left entry point and then `(0, 2)` to the right entry point emits nothing
after the second feed — not the joined element `(0, (None, 2))` the claim
promises — because `Joiner.process` compares the cached value (here `None`)
against `None` rather than testing key presence. -/
theorem join_c1_counterexample :
    (feedR (feedL (joinedWorld "L" "R" "T" 128) (.int 0) Val.none).1
        (.int 0) (.int 2)).2 = .ok [] ∧
    (feedR (feedL (joinedWorld "L" "R" "T" 128) (.int 0) Val.none).1
        (.int 0) (.int 2)).2 ≠
      .ok [⟨"T", .pair (.int 0) (.pair Val.none (.int 2))⟩] := by
  constructor
  · rfl
  · rw [show (feedR (feedL (joinedWorld "L" "R" "T" 128) (.int 0) Val.none).1
        (.int 0) (.int 2)).2 = .ok [] from rfl]
    simp

/-- **C1 (amended).** For two pipelines (with distinct identities) joined
with `join` (capacity ≥ 1), provided the value fed first is not Python
`None`: feeding `(k, a)` to the left entry point emits nothing, and then
feeding `(k, b)` to the right entry point emits exactly one joined element
with payload `(k, (a, b))` — left value first — stamped with the target
pipeline's identity; symmetrically, feeding `(k, b)` right first and then
`(k, a)` left emits the same single element `(k, (a, b))` after the second
feed and none after the first. -/
theorem join_c1_amended (lid rid tid : String) (m : Nat) (hm : 0 < m)
    (hlr : lid ≠ rid) (k a b : Val) (ha : a ≠ Val.none) (hb : b ≠ Val.none) :
    (feedL (joinedWorld lid rid tid m) k a).2 = .ok [] ∧
    (feedR (feedL (joinedWorld lid rid tid m) k a).1 k b).2 =
      .ok [⟨tid, .pair k (.pair a b)⟩] ∧
    (feedR (joinedWorld lid rid tid m) k b).2 = .ok [] ∧
    (feedL (feedR (joinedWorld lid rid tid m) k b).1 k a).2 =
      .ok [⟨tid, .pair k (.pair a b)⟩] := by
  have e1 : feedL (joinedWorld lid rid tid m) k a =
      (jwState lid rid tid ⟨m, [(k, a)]⟩ ⟨m, []⟩, .ok []) := by
    rw [joinedWorld_eq_jwState,
      feedL_miss lid rid tid ⟨m, []⟩ ⟨m, []⟩ k a rfl, lruTouch_nil,
      lruInsert_nil m hm]
  have e2 : feedR (jwState lid rid tid ⟨m, [(k, a)]⟩ ⟨m, []⟩) k b =
      (jwState lid rid tid ⟨m, [(k, a)]⟩ ⟨m, []⟩,
        .ok [⟨tid, .pair k (.pair a b)⟩]) := by
    rw [feedR_hit lid rid tid ⟨m, [(k, a)]⟩ ⟨m, []⟩ k b a (Ne.symm hlr)
      (by rw [lruLookup_cons_self]; rfl) ha, lruTouch_single]
  have e3 : feedR (joinedWorld lid rid tid m) k b =
      (jwState lid rid tid ⟨m, []⟩ ⟨m, [(k, b)]⟩, .ok []) := by
    rw [joinedWorld_eq_jwState,
      feedR_miss lid rid tid ⟨m, []⟩ ⟨m, []⟩ k b (Ne.symm hlr) rfl,
      lruTouch_nil, lruInsert_nil m hm]
  have e4 : feedL (jwState lid rid tid ⟨m, []⟩ ⟨m, [(k, b)]⟩) k a =
      (jwState lid rid tid ⟨m, []⟩ ⟨m, [(k, b)]⟩,
        .ok [⟨tid, .pair k (.pair a b)⟩]) := by
    rw [feedL_hit lid rid tid ⟨m, []⟩ ⟨m, [(k, b)]⟩ k a b
      (by rw [lruLookup_cons_self]; rfl) hb, lruTouch_single]
  refine ⟨by rw [e1], by rw [e1, e2], by rw [e3], by rw [e3, e4]⟩

theorem join_c1_amended_witness :
    0 < 1 ∧ ("L" : String) ≠ "R" ∧ Val.int 1 ≠ Val.none ∧
    Val.int 2 ≠ Val.none ∧
    ((feedL (joinedWorld "L" "R" "T" 1) (.int 7) (.int 1)).2 = .ok [] ∧
     (feedR (feedL (joinedWorld "L" "R" "T" 1) (.int 7) (.int 1)).1
        (.int 7) (.int 2)).2 =
       .ok [⟨"T", .pair (.int 7) (.pair (.int 1) (.int 2))⟩] ∧
     (feedR (joinedWorld "L" "R" "T" 1) (.int 7) (.int 2)).2 = .ok [] ∧
     (feedL (feedR (joinedWorld "L" "R" "T" 1) (.int 7) (.int 2)).1
        (.int 7) (.int 1)).2 =
       .ok [⟨"T", .pair (.int 7) (.pair (.int 1) (.int 2))⟩]) :=
  ⟨by decide, by decide, by decide, by decide,
    join_c1_amended "L" "R" "T" 1 (by decide) (by decide)
      (.int 7) (.int 1) (.int 2) (by decide) (by decide)⟩

/-- **C2, counterexample.** After left `(0, 1)` is matched by right `(0, 2)`,
the left cache still holds the entry `(0, 1)` — the matching lookup did not
remove it — and a further right feed `(0, 3)`, with no re-insertion in
between, is satisfied by the same cached value and emits `(0, (1, 3))`. -/
theorem join_c2_counterexample :
    jCacheL (feedR (feedL (joinedWorld "L" "R" "T" 128) (.int 0) (.int 1)).1
        (.int 0) (.int 2)).1 0 = ⟨128, [(.int 0, .int 1)]⟩ ∧
    (feedR (feedR (feedL (joinedWorld "L" "R" "T" 128) (.int 0) (.int 1)).1
        (.int 0) (.int 2)).1 (.int 0) (.int 3)).2 =
      .ok [⟨"T", .pair (.int 0) (.pair (.int 1) (.int 3))⟩] :=
  ⟨rfl, rfl⟩

/-- **C2 (amended).** A matching lookup does *not* remove the entry from the
opposite cache: after left `(k, a)` is matched by right `(k, b)`, the left
cache still holds `(k, a)` (recency refreshed), and a later right arrival
`(k, c)` — without any re-insertion — matches again and emits `(k, (a, c))`.
Entries leave a cache only by LRU eviction under capacity pressure. -/
theorem join_c2_amended (lid rid tid : String) (m : Nat) (hm : 0 < m)
    (hlr : lid ≠ rid) (k a b c : Val) (ha : a ≠ Val.none) :
    (feedR (feedL (joinedWorld lid rid tid m) k a).1 k b).2 =
      .ok [⟨tid, .pair k (.pair a b)⟩] ∧
    jCacheL (feedR (feedL (joinedWorld lid rid tid m) k a).1 k b).1 0 =
      ⟨m, [(k, a)]⟩ ∧
    (feedR (feedR (feedL (joinedWorld lid rid tid m) k a).1 k b).1 k c).2 =
      .ok [⟨tid, .pair k (.pair a c)⟩] := by
  have e1 : feedL (joinedWorld lid rid tid m) k a =
      (jwState lid rid tid ⟨m, [(k, a)]⟩ ⟨m, []⟩, .ok []) := by
    rw [joinedWorld_eq_jwState,
      feedL_miss lid rid tid ⟨m, []⟩ ⟨m, []⟩ k a rfl, lruTouch_nil,
      lruInsert_nil m hm]
  have e2 : ∀ v : Val, feedR (jwState lid rid tid ⟨m, [(k, a)]⟩ ⟨m, []⟩) k v =
      (jwState lid rid tid ⟨m, [(k, a)]⟩ ⟨m, []⟩,
        .ok [⟨tid, .pair k (.pair a v)⟩]) := by
    intro v
    rw [feedR_hit lid rid tid ⟨m, [(k, a)]⟩ ⟨m, []⟩ k v a (Ne.symm hlr)
      (by rw [lruLookup_cons_self]; rfl) ha, lruTouch_single]
  refine ⟨by rw [e1, e2 b], ?_, by rw [e1, e2 b, e2 c]⟩
  rw [e1, e2 b, jCacheL_jwState]

theorem join_c2_amended_witness :
    0 < 1 ∧ ("L" : String) ≠ "R" ∧ Val.int 1 ≠ Val.none ∧
    ((feedR (feedL (joinedWorld "L" "R" "T" 1) (.int 0) (.int 1)).1
        (.int 0) (.int 2)).2 =
      .ok [⟨"T", .pair (.int 0) (.pair (.int 1) (.int 2))⟩] ∧
     jCacheL (feedR (feedL (joinedWorld "L" "R" "T" 1) (.int 0) (.int 1)).1
        (.int 0) (.int 2)).1 0 = ⟨1, [(.int 0, .int 1)]⟩ ∧
     (feedR (feedR (feedL (joinedWorld "L" "R" "T" 1) (.int 0) (.int 1)).1
        (.int 0) (.int 2)).1 (.int 0) (.int 3)).2 =
      .ok [⟨"T", .pair (.int 0) (.pair (.int 1) (.int 3))⟩]) :=
  ⟨by decide, by decide, by decide,
    join_c2_amended "L" "R" "T" 1 (by decide) (by decide)
      (.int 0) (.int 1) (.int 2) (.int 3) (by decide)⟩

/-- **C10.** If the value cached on the left side for key `k` is `None`
(element `(k, None)` was stored), a later arrival `(k, v)` on the right side
is treated as a non-match: nothing is emitted and `(k, v)` is stored in the
right side's own cache, the left entry surviving untouched — because
`Joiner.process` compares the cached value to `None` rather than testing key
presence. -/
theorem joiner_none_cached_no_match (lid rid tid : String) (m : Nat)
    (hm : 0 < m) (hlr : lid ≠ rid) (k v : Val) :
    (feedL (joinedWorld lid rid tid m) k Val.none).2 = .ok [] ∧
    jCacheL (feedL (joinedWorld lid rid tid m) k Val.none).1 0 =
      ⟨m, [(k, Val.none)]⟩ ∧
    (feedR (feedL (joinedWorld lid rid tid m) k Val.none).1 k v).2 = .ok [] ∧
    jCacheL (feedR (feedL (joinedWorld lid rid tid m) k Val.none).1 k v).1 0 =
      ⟨m, [(k, Val.none)]⟩ ∧
    jCacheR (feedR (feedL (joinedWorld lid rid tid m) k Val.none).1 k v).1 0 =
      ⟨m, [(k, v)]⟩ := by
  have e1 : feedL (joinedWorld lid rid tid m) k Val.none =
      (jwState lid rid tid ⟨m, [(k, Val.none)]⟩ ⟨m, []⟩, .ok []) := by
    rw [joinedWorld_eq_jwState,
      feedL_miss lid rid tid ⟨m, []⟩ ⟨m, []⟩ k Val.none rfl, lruTouch_nil,
      lruInsert_nil m hm]
  have e2 : feedR (jwState lid rid tid ⟨m, [(k, Val.none)]⟩ ⟨m, []⟩) k v =
      (jwState lid rid tid ⟨m, [(k, Val.none)]⟩ ⟨m, [(k, v)]⟩, .ok []) := by
    rw [feedR_miss lid rid tid ⟨m, [(k, Val.none)]⟩ ⟨m, []⟩ k v (Ne.symm hlr)
      (by rw [lruLookup_cons_self]; rfl), lruTouch_single,
      lruInsert_nil m hm]
  exact ⟨by rw [e1], by rw [e1, jCacheL_jwState], by rw [e1, e2],
    by rw [e1, e2, jCacheL_jwState], by rw [e1, e2, jCacheR_jwState]⟩

theorem joiner_none_cached_no_match_witness :
    0 < 2 ∧ ("L" : String) ≠ "R" ∧
    ((feedL (joinedWorld "L" "R" "T" 2) (.int 3) Val.none).2 = .ok [] ∧
     jCacheL (feedL (joinedWorld "L" "R" "T" 2) (.int 3) Val.none).1 0 =
       ⟨2, [(.int 3, Val.none)]⟩ ∧
     (feedR (feedL (joinedWorld "L" "R" "T" 2) (.int 3) Val.none).1
        (.int 3) (.int 9)).2 = .ok [] ∧
     jCacheL (feedR (feedL (joinedWorld "L" "R" "T" 2) (.int 3) Val.none).1
        (.int 3) (.int 9)).1 0 = ⟨2, [(.int 3, Val.none)]⟩ ∧
     jCacheR (feedR (feedL (joinedWorld "L" "R" "T" 2) (.int 3) Val.none).1
        (.int 3) (.int 9)).1 0 = ⟨2, [(.int 3, .int 9)]⟩) :=
  ⟨by decide, by decide,
    joiner_none_cached_no_match "L" "R" "T" 2 (by decide) (by decide)
      (.int 3) (.int 9)⟩

/-- **C8.** Calling `process(x)` on a freshly created pipeline with no stage
appended silently completes: no fault, no output, and the world — hence the
pipeline's state — is left completely unchanged. -/
theorem empty_chain_process_noop (w : World) (sid : String) (d : Val)
    (fuel : Nat) :
    streamProcess fuel (newStream w sid).1 (newStream w sid).2 d =
      ((newStream w sid).1, .ok []) := by
  have hs : getS (newStream w sid).1 (newStream w sid).2 = ⟨sid, none, []⟩ :=
    getD_snoc_self w.streams ⟨sid, none, []⟩ ⟨"", none, []⟩
  simp [streamProcess, hs]

/-- **C6 (evaluation at the failing input).** `IterableSource.start` iterates
`self._stream.process(e)` without the `_process` guard: with no attached
stream, an empty input completes, but the first delivered value hits
`None.process` and raises `AttributeError` (modelled as `Except.error`) —
whereas the base class `Source._process`, used by `KafkaSource`, warns and
discards as the claim describes. -/
theorem iterable_source_unattached_raises (w : World) (fuel : Nat) :
    iterableStart fuel w Option.none [] = (w, .ok []) ∧
    iterableStart fuel w Option.none [.int 1] = (w, .error ()) ∧
    (∀ e : Val, sourceDeliver fuel w Option.none e = ((w, .ok []), 1)) :=
  ⟨rfl, rfl, fun _ => rfl⟩

/-- **C7, counterexample.** A single-`map` pipeline whose transform raises on
`4`: `process(4)` propagates the fault, but the failure is not local to that
invocation — the chain's generator has terminated, so the subsequent
`process(5)` with a valid input also raises (`StopIteration`), while on an
undisturbed pipeline the same call succeeds and emits `5`. -/
theorem transform_fault_not_local_cex :
    (streamProcess 1 (mapWorld "S" raiseOnFour) 0 (.int 4)).2 = .error () ∧
    (streamProcess 1 (streamProcess 1 (mapWorld "S" raiseOnFour) 0
        (.int 4)).1 0 (.int 5)).2 = .error () ∧
    (streamProcess 1 (mapWorld "S" raiseOnFour) 0 (.int 5)).2 =
      .ok [⟨"S", .int 5⟩] :=
  ⟨rfl, rfl, rfl⟩

/-- **C7 (amended).** A transform fault propagates synchronously and uncaught
to the caller of the pipeline's entry point; but the failure is not local to
that invocation: the exception terminates the chain's coroutines, so every
subsequent `process` call on the same pipeline — with any input — raises
(`StopIteration`) instead of behaving as if the faulting call never
happened. -/
theorem transform_fault_propagates_and_bricks (sid : String)
    (f : Val → Except Unit Val) (x : Val) (hx : f x = .error ()) (y : Val) :
    (streamProcess 1 (mapWorld sid f) 0 x).2 = .error () ∧
    (streamProcess 1 (streamProcess 1 (mapWorld sid f) 0 x).1 0 y).2 =
      .error () := by
  have hw : mapWorld sid f =
      ⟨[⟨.mapper f, none⟩], [⟨0, true⟩], [⟨sid, some 0, [0]⟩]⟩ := rfl
  rw [hw]
  constructor
  · simp [streamProcess, sendGen, getS, getG, getF, fkindProcess, setFKind,
      markDead, hx]
  · simp [streamProcess, sendGen, getS, getG, getF, fkindProcess, setFKind,
      markDead, hx]

theorem transform_fault_propagates_and_bricks_witness :
    raiseOnFour (.int 4) = .error () ∧
    ((streamProcess 1 (mapWorld "S" raiseOnFour) 0 (.int 4)).2 = .error () ∧
     (streamProcess 1 (streamProcess 1 (mapWorld "S" raiseOnFour) 0
        (.int 4)).1 0 (.int 9)).2 = .error ()) :=
  ⟨rfl, transform_fault_propagates_and_bricks "S" raiseOnFour (.int 4) rfl
    (.int 9)⟩

/-- **C9.** After `join(left, right)` the single Joiner object is the tail
filter of all three streams and carries the one `next` link: appending
`map(f)` on the target sets it, appending `map(g)` on the left pipeline
afterwards overwrites that same link, and a joined element produced by a
right-side arrival then flows through `g` — the stage appended most recently
across the three pipelines — not through the target's own chain. -/
theorem joiner_shared_next_overwrite (f g : Val → Val) :
    (getS (joinedWorld "L" "R" "T" 128) 0).filters = [0] ∧
    (getS (joinedWorld "L" "R" "T" 128) 1).filters = [0] ∧
    (getS (joinedWorld "L" "R" "T" 128) 2).filters = [0] ∧
    (getF (joinedWorld "L" "R" "T" 128) 0).next = Option.none ∧
    (getF (streamMap (joinedWorld "L" "R" "T" 128) 2 (liftF f)) 0).next =
      some 3 ∧
    (getF (streamMap (streamMap (joinedWorld "L" "R" "T" 128) 2 (liftF f)) 0
        (liftF g)) 0).next = some 4 ∧
    (streamProcess 2 (streamProcess 2 (streamMap (streamMap
        (joinedWorld "L" "R" "T" 128) 2 (liftF f)) 0 (liftF g)) 0
        (.pair (.int 1) (.int 1))).1 1 (.pair (.int 1) (.int 2))).2 =
      .ok [⟨"T", g (.pair (.int 1) (.pair (.int 1) (.int 2)))⟩] :=
  ⟨rfl, rfl, rfl, rfl, rfl, rfl, rfl⟩

theorem reducer_step (sid : String) (f : Val → Val → Val) (a x : Val) :
    streamProcess 1 (reducerWorld sid f a) 0 x =
      (reducerWorld sid f (f x a), .ok [⟨sid, f x a⟩]) := rfl

theorem reducer_feedAll (sid : String) (f : Val → Val → Val) (xs : List Val) :
    ∀ a : Val, feedAll 1 (reducerWorld sid f a) 0 xs =
      (reducerWorld sid f (xs.foldl (fun acc x => f x acc) a),
        (reduceTrace f a xs).map (fun v => .ok [⟨sid, v⟩])) := by
  induction xs with
  | nil => intro a; rfl
  | cons x xs ih =>
      intro a
      simp [feedAll, reducer_step, reduceTrace, ih (f x a)]

theorem reduceTrace_length (f : Val → Val → Val) (xs : List Val) :
    ∀ a : Val, (reduceTrace f a xs).length = xs.length := by
  induction xs with
  | nil => intro a; rfl
  | cons x xs ih => intro a; simp [reduceTrace, ih]

theorem reduceTrace_getD (f : Val → Val → Val) (xs : List Val) :
    ∀ (a : Val) (n : Nat), n < xs.length →
      (reduceTrace f a xs).getD n Val.none =
        (xs.take (n + 1)).foldl (fun acc x => f x acc) a := by
  induction xs with
  | nil => intro a n h; simp at h
  | cons x xs ih =>
      intro a n h
      cases n with
      | zero => simp [reduceTrace]
      | succ n => simpa [reduceTrace] using ih (f x a) n (by simpa using h)

theorem getD_map_of_lt {α β : Type} (g : α → β) (l : List α) :
    ∀ (n : Nat), n < l.length → ∀ (d : β) (d2 : α),
      (l.map g).getD n d = g (l.getD n d2) := by
  induction l with
  | nil => intro n h; simp at h
  | cons x t ih =>
      intro n h d d2
      cases n with
      | zero => rfl
      | succ n => simpa using ih n (by simpa using h) d d2

/-- **C5.** A pipeline with a `reduce(f, initial)` stage emits exactly one
output per `process` call (never suppressed), and the `n`-th emitted value
(0-based) is `f` folded over the first `n+1` inputs in call order starting
from `initial` (the fold takes the element first and the accumulated value
second, as in `Reducer.process`). -/
theorem reducer_folds_in_order (sid : String) (f : Val → Val → Val)
    (initial : Val) (xs : List Val) (n : Nat) (hn : n < xs.length) :
    ((feedAll 1 (reducerWorld sid f initial) 0 xs).2).length = xs.length ∧
    ((feedAll 1 (reducerWorld sid f initial) 0 xs).2).getD n (.error ()) =
      .ok [⟨sid, (xs.take (n + 1)).foldl (fun acc x => f x acc) initial⟩] := by
  rw [reducer_feedAll]
  constructor
  · simp [reduceTrace_length]
  · have hlen : n < (reduceTrace f initial xs).length := by
      rw [reduceTrace_length]
      exact hn
    rw [getD_map_of_lt _ _ n hlen _ Val.none, reduceTrace_getD f xs initial n hn]

theorem reducer_folds_in_order_witness :
    2 < 3 ∧
    (((feedAll 1 (reducerWorld "S" addInts (.int 1)) 0
        [.int 4, .int 4, .int 4]).2).length = 3 ∧
     ((feedAll 1 (reducerWorld "S" addInts (.int 1)) 0
        [.int 4, .int 4, .int 4]).2).getD 2 (.error ()) =
      .ok [⟨"S", ([Val.int 4, .int 4, .int 4].take (2 + 1)).foldl
        (fun acc x => addInts x acc) (.int 1)⟩]) :=
  ⟨by decide, reducer_folds_in_order "S" addInts (.int 1)
    [.int 4, .int 4, .int 4] 2 (by decide)⟩

theorem set_getD_self {α : Type} (l : List α) :
    ∀ (i : Nat) (d : α), l.set i (l.getD i d) = l := by
  induction l with
  | nil => intro i d; rfl
  | cons x t ih =>
      intro i d
      cases i with
      | zero => rfl
      | succ i => simpa using ih i d

theorem set_append_left {α : Type} (l1 : List α) :
    ∀ (l2 : List α) (i : Nat) (a : α), i < l1.length →
      (l1 ++ l2).set i a = l1.set i a ++ l2 := by
  induction l1 with
  | nil => intro l2 i a h; simp at h
  | cons x t ih =>
      intro l2 i a h
      cases i with
      | zero => rfl
      | succ i => simpa using ih l2 i a (by simpa using h)

theorem linked_length (fs : List (Val → Val)) :
    ∀ (j n : Nat), (linked fs j n).length = fs.length := by
  induction fs with
  | nil => intro j n; rfl
  | cons f fs ih => intro j n; simp [linked, ih]

theorem linked_append (fs : List (Val → Val)) (f : Val → Val) :
    ∀ (j n : Nat), linked (fs ++ [f]) j n =
      linked fs j n ++ [linkObj f (j + fs.length) n] := by
  induction fs with
  | nil => intro j n; simp [linked]
  | cons g gs ih =>
      intro j n
      show linkObj g j n :: linked (gs ++ [f]) (j + 1) n = _
      rw [ih (j + 1) n]
      have hnat : j + 1 + gs.length = j + (g :: gs).length := by
        simp
        omega
      rw [hnat]
      rfl

theorem linked_getD (fs : List (Val → Val)) (dG : Val → Val)
    (d : FilterObj) :
    ∀ (i j n : Nat), i < fs.length →
      (linked fs j n).getD i d = linkObj (fs.getD i dG) (j + i) n := by
  induction fs with
  | nil => intro i j n h; simp at h
  | cons f fs ih =>
      intro i j n h
      cases i with
      | zero => rfl
      | succ i =>
          have := ih i (j + 1) n (by simpa using h)
          simpa [linked, Nat.add_assoc, Nat.add_comm 1 i] using this

theorem linkObj_succ (f : Val → Val) (j n : Nat) (h : j + 1 < n) :
    linkObj f j n = linkObj f j (n + 1) := by
  unfold linkObj
  rw [if_pos h, if_pos (by omega)]

theorem linked_grow (fs : List (Val → Val)) :
    ∀ (j n : Nat), j + fs.length < n → linked fs j n = linked fs j (n + 1) := by
  induction fs with
  | nil => intro j n h; rfl
  | cons f fs ih =>
      intro j n h
      simp only [List.length_cons] at h
      show linkObj f j n :: linked fs (j + 1) n = _
      rw [linkObj_succ f j n (by omega), ih (j + 1) n (by omega)]
      rfl

theorem set_append_at {α : Type} (l1 : List α) (a v : α) :
    (l1 ++ [a]).set l1.length v = l1 ++ [v] := by
  simp

/-- Linking the tail mapper of a chain of `n` filters to a freshly appended
generator `n` turns the `n`-filter chain heap into the prefix of the
`(n+1)`-filter chain heap. -/
theorem linked_set_last (fs : List (Val → Val)) (lst : Val → Val)
    (j n : Nat) (h : j + fs.length + 1 = n) :
    (linked (fs ++ [lst]) j n).set ((fs ++ [lst]).length - 1)
        ⟨.mapper (liftF lst), some n⟩ = linked (fs ++ [lst]) j (n + 1) := by
  rw [linked_append fs lst j n, linked_append fs lst j (n + 1)]
  have hidx : (fs ++ [lst]).length - 1 = fs.length := by simp
  rw [hidx, ← linked_length fs j n, set_append_at, linked_length fs j n]
  rw [← linked_grow fs j n (by omega)]
  have hobj : linkObj lst (j + fs.length) (n + 1) =
      ⟨.mapper (liftF lst), some n⟩ := by
    unfold linkObj
    rw [if_pos (by omega), show j + fs.length + 1 = n from h]
  rw [hobj]

theorem range_getLastD (n : Nat) (h : n ≠ 0) :
    (List.range n).getLastD 0 = n - 1 := by
  obtain ⟨m, rfl⟩ := Nat.exists_eq_succ_of_ne_zero h
  rw [List.range_succ, List.getLastD_eq_getLast?, List.getLast?_concat]
  rfl

/-- `Stream.map` evaluated on a single-stream world of explicit shape whose
chain is non-empty: pure heap bookkeeping, no case analysis left. -/
theorem streamMap_shape (A : List FilterObj) (B : List Gen) (sid : String)
    (hd : Nat) (filts : List Nat) (fn : Val → Except Unit Val) :
    streamMap ⟨A, B, [⟨sid, some hd, filts⟩]⟩ 0 fn =
      ⟨(A ++ [(⟨.mapper fn, none⟩ : FilterObj)]).set (filts.getLastD 0)
          ⟨((A ++ [(⟨.mapper fn, none⟩ : FilterObj)]).getD (filts.getLastD 0)
              defaultFilterObj).kind, some B.length⟩,
        B ++ [(⟨A.length, true⟩ : Gen)],
        [(⟨sid, some hd, filts ++ [A.length]⟩ : StreamObj)]⟩ := rfl

theorem linWorld_of_ne_nil (sid : String) (fs : List (Val → Val))
    (hne : fs ≠ []) :
    linWorld sid fs = ⟨linked fs 0 fs.length,
      (List.range fs.length).map (fun i => ⟨i, true⟩),
      [⟨sid, some 0, List.range fs.length⟩]⟩ := by
  unfold linWorld
  rw [if_neg (by simpa using hne)]

theorem streamMap_linWorld (sid : String) (fs : List (Val → Val))
    (hne : fs ≠ []) (f : Val → Val) :
    streamMap (linWorld sid fs) 0 (liftF f) = linWorld sid (fs ++ [f]) := by
  obtain ⟨fs', lst, rfl⟩ : ∃ fs' lst, fs = fs' ++ [lst] := by
    rcases List.eq_nil_or_concat fs with h | ⟨L, b, h⟩
    · exact absurd h hne
    · exact ⟨L, b, by simpa [List.concat_eq_append] using h⟩
  have hlen : (fs' ++ [lst]).length = fs'.length + 1 := by simp
  have hBlen : ((List.range (fs' ++ [lst]).length).map
      (fun i => (⟨i, true⟩ : Gen))).length = (fs' ++ [lst]).length := by
    simp
  have hAlen : (linked (fs' ++ [lst]) 0 (fs' ++ [lst]).length).length =
      (fs' ++ [lst]).length := linked_length _ 0 _
  rw [linWorld_of_ne_nil sid (fs' ++ [lst]) hne,
    linWorld_of_ne_nil sid ((fs' ++ [lst]) ++ [f]) (by simp),
    streamMap_shape]
  have hlast : (List.range (fs' ++ [lst]).length).getLastD 0 = fs'.length := by
    rw [range_getLastD _ (by simp), hlen]
    omega
  have hgetD : ((linked (fs' ++ [lst]) 0 (fs' ++ [lst]).length ++
      [(⟨.mapper (liftF f), none⟩ : FilterObj)]).getD fs'.length
        defaultFilterObj) = (⟨.mapper (liftF lst), none⟩ : FilterObj) := by
    rw [List.getD_append _ _ _ _ (by rw [hAlen, hlen]; omega),
      linked_getD _ lst _ _ 0 _ (by rw [hlen]; omega),
      getD_snoc_self]
    unfold linkObj
    rw [if_neg (by rw [hlen]; omega)]
  have hset : (linked (fs' ++ [lst]) 0 (fs' ++ [lst]).length ++
        [(⟨.mapper (liftF f), none⟩ : FilterObj)]).set fs'.length
        (⟨.mapper (liftF lst), some (fs' ++ [lst]).length⟩ : FilterObj) =
      linked (fs' ++ [lst]) 0 ((fs' ++ [lst]).length + 1) ++
        [(⟨.mapper (liftF f), none⟩ : FilterObj)] := by
    rw [set_append_left _ _ _ _ (by rw [hAlen, hlen]; omega)]
    have hll := linked_set_last fs' lst 0 (fs' ++ [lst]).length
      (by rw [hlen]; omega)
    rw [show (fs' ++ [lst]).length - 1 = fs'.length by rw [hlen]; omega] at hll
    rw [hll]
  have hlen2 : ((fs' ++ [lst]) ++ [f]).length = (fs' ++ [lst]).length + 1 := by
    simp
  have hobj : linkObj f (0 + (fs' ++ [lst]).length)
      ((fs' ++ [lst]).length + 1) = (⟨.mapper (liftF f), none⟩ : FilterObj) := by
    unfold linkObj
    rw [if_neg (by omega)]
  rw [hlast]
  simp only [hgetD, hBlen, hAlen]
  rw [hset, hlen2, List.range_succ, List.map_append,
    linked_append (fs' ++ [lst]) f 0 ((fs' ++ [lst]).length + 1), hobj]
  rfl

theorem buildMaps_eq_linWorld (sid : String) (fs : List (Val → Val)) :
    buildMaps sid fs = linWorld sid fs := by
  induction fs using List.reverseRecOn with
  | nil => rfl
  | append_singleton fs f ih =>
      have hstep : buildMaps sid (fs ++ [f]) =
          streamMap (buildMaps sid fs) 0 (liftF f) := by
        unfold buildMaps
        rw [List.foldl_append]
        rfl
      rw [hstep, ih]
      cases hfs : fs with
      | nil => rfl
      | cons g gs =>
          rw [← hfs]
          exact streamMap_linWorld sid fs (by rw [hfs]; simp) f

theorem getG_linWorld (sid : String) (FS : List (Val → Val)) (k : Nat)
    (hk : k < FS.length) : getG (linWorld sid FS) k = ⟨k, true⟩ := by
  unfold getG linWorld
  rw [List.getD_eq_getElem _ _ (by simpa using hk)]
  simp

theorem getF_linWorld (sid : String) (FS : List (Val → Val))
    (dG : Val → Val) (k : Nat) (hk : k < FS.length) :
    getF (linWorld sid FS) k = linkObj (FS.getD k dG) k FS.length := by
  unfold getF linWorld
  have := linked_getD FS dG defaultFilterObj k 0 FS.length hk
  simpa using this

theorem set_getF_self (w : World) (i : Nat) :
    { w with filterObjs := w.filterObjs.set i (getF w i) } = w := by
  unfold getF
  rw [set_getD_self]

theorem setFKind_linWorld_self (sid : String) (FS : List (Val → Val))
    (dG : Val → Val) (k : Nat) (hk : k < FS.length) :
    setFKind (linWorld sid FS) k (.mapper (liftF (FS.getD k dG))) =
      linWorld sid FS := by
  have hf := getF_linWorld sid FS dG k hk
  have hv : (⟨.mapper (liftF (FS.getD k dG)),
      (getF (linWorld sid FS) k).next⟩ : FilterObj) =
      getF (linWorld sid FS) k := by
    rw [hf]
    rfl
  unfold setFKind
  rw [hv]
  exact set_getF_self (linWorld sid FS) k

theorem getD_of_drop_cons {α : Type} (L : List α) :
    ∀ (k : Nat) (x : α) (t : List α) (d : α),
      L.drop k = x :: t → L.getD k d = x := by
  induction L with
  | nil => intro k x t d h; simp at h
  | cons a L ih =>
      intro k x t d h
      cases k with
      | zero => simpa using congrArg (fun l => l.headD d) h
      | succ k => exact ih k x t d (by simpa using h)

/-- Running `send` on the generator `k` of a linear mapper chain applies the
remaining suffix of transforms in order and leaves the world unchanged. -/
theorem linRun (sid : String) (FS : List (Val → Val)) :
    ∀ (fsfx : List (Val → Val)) (k : Nat) (e : Element) (m : Nat),
      FS.drop k = fsfx → fsfx ≠ [] → fsfx.length ≤ m →
      sendGen m (linWorld sid FS) k e =
        (linWorld sid FS,
          .ok [⟨e.stream_id, fsfx.foldl (fun a g => g a) e.data⟩]) := by
  intro fsfx
  induction fsfx with
  | nil => intro k e m hd hne hm; exact absurd rfl hne
  | cons f rest ih =>
      intro k e m hd hne hm
      have hk : k < FS.length := by
        by_contra hc
        rw [List.drop_eq_nil_iff.mpr (by omega)] at hd
        exact List.cons_ne_nil f rest hd.symm
      have hfk : FS.getD k id = f := getD_of_drop_cons FS k f rest id hd
      have hrest : FS.drop (k + 1) = rest := by
        have hdd := List.drop_drop 1 k FS
        rw [hd] at hdd
        simpa using hdd.symm
      cases m with
      | zero => simp at hm
      | succ m =>
        have hG : getG (linWorld sid FS) k = ⟨k, true⟩ :=
          getG_linWorld sid FS k hk
        have hSet : setFKind (linWorld sid FS) k (.mapper (liftF f)) =
            linWorld sid FS := by
          rw [← hfk]
          exact setFKind_linWorld_self sid FS id k hk
        cases rest with
        | nil =>
            have hlast : ¬(k + 1 < FS.length) := by
              have : FS.drop (k + 1) = [] := hrest
              rw [List.drop_eq_nil_iff] at this
              omega
            have hF : getF (linWorld sid FS) k =
                ⟨.mapper (liftF f), none⟩ := by
              rw [getF_linWorld sid FS id k hk, hfk]
              unfold linkObj
              rw [if_neg hlast]
            simp [sendGen, hG, hF, hSet, fkindProcess, liftF, List.foldl]
        | cons r rs =>
            have hnext : k + 1 < FS.length := by
              by_contra hc
              have : FS.drop (k + 1) = [] := by
                rw [List.drop_eq_nil_iff]
                omega
              rw [hrest] at this
              exact List.cons_ne_nil r rs this
            have hF : getF (linWorld sid FS) k =
                ⟨.mapper (liftF f), some (k + 1)⟩ := by
              rw [getF_linWorld sid FS id k hk, hfk]
              unfold linkObj
              rw [if_pos hnext]
            have hih := ih (k + 1) ⟨e.stream_id, f e.data⟩ m hrest
              (List.cons_ne_nil r rs) (by simpa using hm)
            simp [sendGen, hG, hF, hSet, fkindProcess, liftF, hih, List.foldl]

theorem streamProcess_of_head (fuel : Nat) (w : World) (s : Nat)
    (sid : String) (g : Nat) (filts : List Nat)
    (h : getS w s = ⟨sid, some g, filts⟩) (data : Val) :
    streamProcess fuel w s data = sendGen fuel w g ⟨sid, data⟩ := by
  unfold streamProcess
  rw [h]

/-- **C4.** For every pipeline built by appending `map(f₀), …, map(fₙ)` and
every input `x`, `process(x)` yields at the end of the chain exactly one
element whose payload is the left-to-right composition of the appended
functions applied to `x`, stamped with the pipeline's own identity (each
`Mapper` output carries the same identity as its input element, as the
second conjunct states for every mapper in isolation). -/
theorem map_chain_composes (sid : String) (f0 : Val → Val)
    (fs : List (Val → Val)) (x : Val) :
    (streamProcess (f0 :: fs).length (buildMaps sid (f0 :: fs)) 0 x).2 =
      .ok [⟨sid, (f0 :: fs).foldl (fun a g => g a) x⟩] ∧
    ∀ (g : Val → Val) (e : Element),
      (fkindProcess (.mapper (liftF g)) e).2 =
        .ok (some ⟨e.stream_id, g e.data⟩) := by
  constructor
  · rw [buildMaps_eq_linWorld]
    have hS : getS (linWorld sid (f0 :: fs)) 0 =
        ⟨sid, some 0, List.range (f0 :: fs).length⟩ := by
      rw [linWorld_of_ne_nil sid _ (List.cons_ne_nil f0 fs)]
      rfl
    have hrun := linRun sid (f0 :: fs) (f0 :: fs) 0 ⟨sid, x⟩
      (f0 :: fs).length rfl (List.cons_ne_nil f0 fs) le_rfl
    rw [streamProcess_of_head _ _ _ sid 0 _ hS x, hrun]
  · intro g e
    rfl

theorem feedL_empty_cr (lid rid tid : String) (cl : LRUCache) (m : Nat)
    (k v : Val) :
    streamProcess 1 (jwState lid rid tid cl ⟨m, []⟩) 0 (.pair k v) =
      (jwState lid rid tid (lruInsert cl k v) ⟨m, []⟩, .ok []) := by
  have h := feedL_miss lid rid tid cl ⟨m, []⟩ k v rfl
  rwa [lruTouch_nil] at h

theorem feedAll_left_jw (lid rid tid : String) (m : Nat) (vf : Val → Val)
    (ks : List Val) :
    ∀ cl : LRUCache,
      feedAll 1 (jwState lid rid tid cl ⟨m, []⟩) 0
          (ks.map (fun k => .pair k (vf k))) =
        (jwState lid rid tid
            (ks.foldl (fun c k => lruInsert c k (vf k)) cl) ⟨m, []⟩,
          ks.map (fun _ => .ok [])) := by
  induction ks with
  | nil => intro cl; rfl
  | cons k ks ih =>
      intro cl
      simp [feedAll, feedL_empty_cr, ih (lruInsert cl k (vf k))]

theorem take_cons_take {α : Type} (x : α) (L : List α) (m : Nat) :
    (x :: L.take m).take m = (x :: L).take m := by
  cases m with
  | zero => rfl
  | succ m2 =>
      simp [List.take_take, Nat.min_eq_left (Nat.le_succ m2)]

theorem foldl_lruInsert_nodup (m : Nat) (vf : Val → Val) (ks : List Val)
    (hnd : ks.Nodup) :
    ks.foldl (fun c k => lruInsert c k (vf k)) ⟨m, []⟩ =
      ⟨m, (ks.reverse.map (fun k => (k, vf k))).take m⟩ := by
  induction ks using List.reverseRecOn with
  | nil => simp
  | append_singleton ks k ih =>
      rw [List.nodup_append] at hnd
      have hnd2 : ks.Nodup := hnd.1
      have hkn : k ∉ ks := fun hk => hnd.2.2 hk (by simp)
      rw [List.foldl_append, ih hnd2]
      have hfil : ((ks.reverse.map (fun q => (q, vf q))).take m).filter
          (fun p => p.1 ≠ k) =
          (ks.reverse.map (fun q => (q, vf q))).take m := by
        rw [List.filter_eq_self]
        intro p hp
        have hp2 := List.take_subset m _ hp
        obtain ⟨q, hq, rfl⟩ := List.mem_map.mp hp2
        have : q ∈ ks := List.mem_reverse.mp hq
        simp only [decide_eq_true_eq]
        intro hqe
        exact hkn (by rw [← hqe]; exact this)
      show lruInsert _ k (vf k) = _
      unfold lruInsert
      simp only [hfil]
      rw [take_cons_take]
      simp

theorem lookup_head_evicted (m : Nat) (vf : Val → Val) (k1 : Val)
    (rest : List Val) (hnd : (k1 :: rest).Nodup) (hlen : m ≤ rest.length) :
    lruLookup ⟨m, ((k1 :: rest).reverse.map (fun k => (k, vf k))).take m⟩
      k1 = none := by
  have hk1 : k1 ∉ rest := (List.nodup_cons.mp hnd).1
  have hfind : (((k1 :: rest).reverse.map (fun k => (k, vf k))).take m).find?
      (fun p => p.1 = k1) = none := by
    rw [List.find?_eq_none]
    intro p hp
    rw [show (k1 :: rest).reverse = rest.reverse ++ [k1] by simp,
      List.map_append, List.take_append_eq_append_take,
      show m - (rest.reverse.map (fun k => (k, vf k))).length = 0 by
        simp
        omega] at hp
    simp only [List.take_zero, List.append_nil] at hp
    have hp2 := List.take_subset m _ hp
    obtain ⟨q, hq, rfl⟩ := List.mem_map.mp hp2
    have hqr : q ∈ rest := List.mem_reverse.mp hq
    simp only [decide_eq_true_eq]
    intro hqe
    exact hk1 (by rw [← hqe]; exact hqr)
  unfold lruLookup
  rw [hfind]
  rfl

/-- **C3.** Feeding more distinct (unmatched) keys to one side of a Joiner
than its capacity `m`: every feed emits nothing, the side's cache retains
exactly the `m` most recently inserted keys (the least recently used entries
were evicted first) and never exceeds `m` entries; a later arrival on the
opposite side carrying the first (evicted) key emits nothing and raises no
fault. -/
theorem join_lru_eviction (m : Nat) (_hm : 0 < m) (ks : List Val)
    (hnd : ks.Nodup) (hlen : m < ks.length) (vf : Val → Val) (b : Val) :
    (feedAll 1 (joinedWorld "L" "R" "T" m) 0
        (ks.map (fun k => .pair k (vf k)))).2 = ks.map (fun _ => .ok []) ∧
    jCacheL (feedAll 1 (joinedWorld "L" "R" "T" m) 0
        (ks.map (fun k => .pair k (vf k)))).1 0 =
      ⟨m, (ks.reverse.map (fun k => (k, vf k))).take m⟩ ∧
    (jCacheL (feedAll 1 (joinedWorld "L" "R" "T" m) 0
        (ks.map (fun k => .pair k (vf k)))).1 0).entries.length = m ∧
    (feedR (feedAll 1 (joinedWorld "L" "R" "T" m) 0
        (ks.map (fun k => .pair k (vf k)))).1 (ks.headD Val.none) b).2 =
      .ok [] := by
  obtain ⟨k1, rest, rfl⟩ : ∃ k1 rest, ks = k1 :: rest := by
    cases ks with
    | nil => simp at hlen
    | cons a t => exact ⟨a, t, rfl⟩
  have hrlen : m ≤ rest.length := by
    simp only [List.length_cons] at hlen
    omega
  rw [joinedWorld_eq_jwState,
    feedAll_left_jw "L" "R" "T" m vf (k1 :: rest) ⟨m, []⟩,
    foldl_lruInsert_nodup m vf (k1 :: rest) hnd]
  have hlook := lookup_head_evicted m vf k1 rest hnd hrlen
  refine ⟨rfl, jCacheL_jwState _ _ _ _ _, ?_, ?_⟩
  · rw [jCacheL_jwState]
    simp [List.length_take]
    omega
  · simp only [List.headD_cons]
    rw [feedR_miss "L" "R" "T" _ _ k1 b (by decide) (by rw [hlook]; rfl)]

theorem join_lru_eviction_witness :
    0 < 2 ∧ ([Val.int 0, .int 1, .int 2] : List Val).Nodup ∧
    2 < ([Val.int 0, .int 1, .int 2] : List Val).length ∧
    ((feedAll 1 (joinedWorld "L" "R" "T" 2) 0
        (([Val.int 0, .int 1, .int 2] : List Val).map
          (fun k => .pair k k))).2 =
      ([Val.int 0, .int 1, .int 2] : List Val).map (fun _ => .ok []) ∧
     jCacheL (feedAll 1 (joinedWorld "L" "R" "T" 2) 0
        (([Val.int 0, .int 1, .int 2] : List Val).map
          (fun k => .pair k k))).1 0 =
      ⟨2, (([Val.int 0, .int 1, .int 2] : List Val).reverse.map
          (fun k => (k, k))).take 2⟩ ∧
     (jCacheL (feedAll 1 (joinedWorld "L" "R" "T" 2) 0
        (([Val.int 0, .int 1, .int 2] : List Val).map
          (fun k => .pair k k))).1 0).entries.length = 2 ∧
     (feedR (feedAll 1 (joinedWorld "L" "R" "T" 2) 0
        (([Val.int 0, .int 1, .int 2] : List Val).map
          (fun k => .pair k k))).1
        (([Val.int 0, .int 1, .int 2] : List Val).headD Val.none)
        (.int 9)).2 = .ok []) :=
  ⟨by decide, by decide, by decide,
    join_lru_eviction 2 (by decide) [Val.int 0, .int 1, .int 2] (by decide)
      (by decide) (fun k => k) (.int 9)⟩
